import Mathlib

/-!
Verification of the add-import tool (tools/add-import-in-java/python/add-import.py).

The file content is modelled as a `List Char`.  Python's `str.splitlines`,
`str.strip`, `str.lstrip`, `str.lower` and `str.startswith` are embedded
faithfully (line-boundary and whitespace character sets as in CPython).
-/

/-- Characters treated as line boundaries by Python `str.splitlines`. -/
def isPyLineBreak (c : Char) : Bool :=
  let n := c.toNat
  n = 0xa || n = 0xd || n = 0xb || n = 0xc || n = 0x1c || n = 0x1d || n = 0x1e ||
  n = 0x85 || n = 0x2028 || n = 0x2029

/-- Characters treated as whitespace by Python `str.strip` / `str.lstrip`. -/
def pyIsSpace (c : Char) : Bool :=
  let n := c.toNat
  n = 0x20 || (0x9 ≤ n && n ≤ 0xd) || (0x1c ≤ n && n ≤ 0x1f) ||
  n = 0x85 || n = 0xa0 || n = 0x1680 || (0x2000 ≤ n && n ≤ 0x200a) ||
  n = 0x2028 || n = 0x2029 || n = 0x202f || n = 0x205f || n = 0x3000

/-- Worker for `pySplitlines`.  `acc` holds the current line reversed; `sawCR`
records that the previous character was a carriage return whose line was
already emitted, so that a following line feed is part of the same "\r\n"
boundary and is skipped. -/
def splitAux : List Char → List Char → Bool → List (List Char)
  | [], acc, _ => if acc = [] then [] else [acc.reverse]
  | c :: rest, acc, sawCR =>
      if sawCR = true ∧ c = '\n' then splitAux rest [] false
      else if isPyLineBreak c = true then
        acc.reverse :: splitAux rest [] (decide (c = '\r'))
      else splitAux rest (c :: acc) false

/-- Python `content.splitlines()`. -/
def pySplitlines (content : List Char) : List (List Char) :=
  splitAux content [] false

/-- Python `s.lstrip()`. -/
def pyLstrip (l : List Char) : List Char :=
  l.dropWhile pyIsSpace

/-- Python `s.strip()`. -/
def pyStrip (l : List Char) : List Char :=
  ((l.dropWhile pyIsSpace).reverse.dropWhile pyIsSpace).reverse

/-- `_import_line(static, fqn)`: the canonical import line
`import [static ]<fqn>;`. -/
def importLine (isStatic : Bool) (fqn : List Char) : List Char :=
  "import ".data ++ (if isStatic then "static ".data else []) ++ fqn ++ [';']

/-- `_already_has_import(content, import_line)`: some line of the content,
after stripping surrounding whitespace, equals the stripped import line. -/
def alreadyHasImport (content line : List Char) : Bool :=
  (pySplitlines content).any fun raw => pyStrip raw == pyStrip line

/-- Number of lines of the content that, after stripping, equal the
stripped import line (what `_already_has_import` tests for being nonzero). -/
def countMatching (content line : List Char) : Nat :=
  (pySplitlines content).countP fun raw => pyStrip raw == pyStrip line

/-- Worker for `_find_positions`: folds over the lines with a 1-based index,
recording the last line whose `lstrip` starts with `"import "` and the first
line whose `lstrip` starts with `"package "`. -/
def findPositionsAux : List (List Char) → Nat → Nat × Nat → Nat × Nat
  | [], _, acc => acc
  | raw :: rest, idx, (li, pl) =>
      let s := pyLstrip raw
      let li2 := if "import ".data.isPrefixOf s then idx else li
      let pl2 := if "package ".data.isPrefixOf s ∧ pl = 0 then idx else pl
      findPositionsAux rest (idx + 1) (li2, pl2)

/-- `_find_positions(content)`: `(last_import_line_no, package_line_no)`,
both 1-based, `0` when not found. -/
def findPositions (content : List Char) : Nat × Nat :=
  findPositionsAux (pySplitlines content) 1 (0, 0)

/-- The `insert_after` value computed in `_insert_import`. -/
def insertAfterPos (content : List Char) : Nat :=
  let fp := findPositions content
  if fp.1 > 0 then fp.1 else if fp.2 > 0 then fp.2 else 0

/-- The loop of `_insert_import` building `out_lines`: copy each line and,
right after the line numbered `ia`, add the import line (and a blank line
when `addBlank`, i.e. when there were no imports but a package line). -/
def buildOut (line : List Char) (addBlank : Bool) :
    List (List Char) → Nat → Nat → List (List Char)
  | [], _, _ => []
  | l :: rest, idx, ia =>
      l :: (if idx = ia then
              line :: (if addBlank then [[]] else []) ++ buildOut line addBlank rest (idx + 1) ia
            else buildOut line addBlank rest (idx + 1) ia)

/-- The `out_lines` list built by `_insert_import` (non-top-of-file case). -/
def outLines (content line : List Char) : List (List Char) :=
  let fp := findPositions content
  buildOut line (decide (fp.1 = 0 ∧ 0 < fp.2)) (pySplitlines content) 1 (insertAfterPos content)

/-- `_insert_import(content, import_line)`. -/
def insertImport (content line : List Char) : List Char :=
  if insertAfterPos content = 0 then
    line ++ '\n' :: '\n' :: content
  else
    List.intercalate ['\n'] (outLines content line) ++
      (if content.getLast? = some '\n' then ['\n'] else [])

/-- The per-file content transformation performed by `main` (lines 134-138):
skip when the import is already present, otherwise insert it. -/
def addImport (content line : List Char) : List Char :=
  if alreadyHasImport content line then content else insertImport content line

/-- `l` contains no Python line-boundary character. -/
def noBrk (l : List Char) : Bool :=
  l.all fun c => !isPyLineBreak c

/-- Python `s.lower()` (ASCII case mapping; extensionally adequate for the
`suffix.lower() == ".java"` test, since `"."`, `"j"`, `"a"`, `"v"` are the
lowercase images of ASCII characters only). -/
def pyLower (l : List Char) : List Char :=
  l.map Char.toLower

/-- Abstraction of one path argument of `main`: the facts the loop body
queries about it (`f.exists()`, `f.is_file()`, `f.suffix`) and the text
`_read_text` would return. -/
structure JavaFile where
  pathExists : Bool
  isRegularFile : Bool
  suffix : List Char
  content : List Char
deriving DecidableEq

/-- The console message classes emitted by `main`:
`errorNoFiles` = "[ERROR] Provide at least one Java file path" (stderr),
`warnNotAFile` = "[WARN] Skipping: not a file: PATH" (stderr),
`warnNonJava` = "[WARN] Skipping non-Java file: PATH" (stderr),
`infoAlreadyPresent` = "[INFO] Import already present in PATH — skipping",
`okAdded` = "[OK] Added: LINE -> PATH". -/
inductive Event where
  | errorNoFiles
  | warnNotAFile
  | warnNonJava
  | infoAlreadyPresent
  | okAdded
deriving DecidableEq

/-- The body of the `for f in java_files` loop of `main`: the message class
emitted for the file and the file's state afterwards. -/
def processFile (line : List Char) (f : JavaFile) : Event × JavaFile :=
  if f.pathExists = false then (Event.warnNotAFile, f)
  else if f.isRegularFile = false then (Event.warnNotAFile, f)
  else if ¬ pyLower f.suffix = ".java".data then (Event.warnNonJava, f)
  else if alreadyHasImport f.content line then (Event.infoAlreadyPresent, f)
  else (Event.okAdded, { f with content := insertImport f.content line })

/-- The `for` loop of `main` over the file list. -/
def processList (line : List Char) : List JavaFile → List (Event × JavaFile)
  | [] => []
  | f :: rest => processFile line f :: processList line rest

/-- Outcome of a whole run of `main`: process exit code, emitted message
classes, and the final state of the files. -/
structure RunResult where
  exitCode : Nat
  events : List Event
  finalFiles : List JavaFile
deriving DecidableEq

/-- `main(static, fqn, java_files)`: exit 1 with the error message when no
files are given, otherwise process each file in order and exit 0. -/
def mainRun (isStatic : Bool) (fqn : List Char) (files : List JavaFile) : RunResult :=
  if files.isEmpty then ⟨1, [Event.errorNoFiles], files⟩
  else
    let rs := processList (importLine isStatic fqn) files
    ⟨0, rs.map Prod.fst, rs.map Prod.snd⟩

/-- A file hitting one of the per-file skip conditions of `main`. -/
def skipped (f : JavaFile) : Bool :=
  !f.pathExists || !f.isRegularFile || !(pyLower f.suffix == ".java".data)

/-- The warning emitted for a skipped file. -/
def warnEventFor (f : JavaFile) : Event :=
  if !f.pathExists || !f.isRegularFile then Event.warnNotAFile else Event.warnNonJava

/-! ### Lemmas about `splitAux` / `pySplitlines` -/

theorem decide_lf_ne_cr : (decide ('\n' = '\r')) = false := by decide

theorem splitAux_append_nl (l : List Char) (hl : noBrk l = true) :
    ∀ (acc rest : List Char),
      splitAux (l ++ '\n' :: rest) acc false = (acc.reverse ++ l) :: splitAux rest [] false := by
  induction l with
  | nil =>
      intro acc rest
      simp only [List.nil_append, splitAux]
      rw [if_neg (by simp), if_pos (by decide), decide_lf_ne_cr]
      simp
  | cons c t ih =>
      intro acc rest
      simp only [noBrk, List.all_cons, Bool.and_eq_true, Bool.not_eq_true'] at hl
      have hc : isPyLineBreak c = false := hl.1
      have ht : noBrk t = true := hl.2
      simp only [List.cons_append, splitAux, List.append_eq]
      rw [if_neg (by simp), if_neg (by simp [hc])]
      rw [ih ht (c :: acc) rest]
      simp

theorem splitAux_noBrk (l : List Char) (hl : noBrk l = true) :
    ∀ acc : List Char,
      splitAux l acc false =
        if acc.reverse ++ l = [] then [] else [acc.reverse ++ l] := by
  induction l with
  | nil =>
      intro acc
      simp only [splitAux, List.append_nil]
      by_cases h : acc = []
      · subst h; simp
      · rw [if_neg h, if_neg (by simp [h])]
  | cons c t ih =>
      intro acc
      simp only [noBrk, List.all_cons, Bool.and_eq_true, Bool.not_eq_true'] at hl
      have hc : isPyLineBreak c = false := hl.1
      simp only [splitAux]
      rw [if_neg (by simp), if_neg (by simp [hc]), ih hl.2 (c :: acc)]
      simp

theorem splitAux_mem_noBrk :
    ∀ (s : List Char) (acc : List Char) (b : Bool),
      (∀ c ∈ acc, isPyLineBreak c = false) →
      ∀ l ∈ splitAux s acc b, ∀ c ∈ l, isPyLineBreak c = false := by
  intro s
  induction s with
  | nil =>
      intro acc b hacc l hl c hc
      simp only [splitAux] at hl
      by_cases h : acc = []
      · simp [h] at hl
      · rw [if_neg h] at hl
        simp only [List.mem_singleton] at hl
        subst hl
        exact hacc c (List.mem_reverse.mp hc)
  | cons d t ih =>
      intro acc b hacc l hl c hc
      simp only [splitAux] at hl
      by_cases h1 : b = true ∧ d = '\n'
      · rw [if_pos h1] at hl
        exact ih [] false (by simp) l hl c hc
      · rw [if_neg h1] at hl
        by_cases h2 : isPyLineBreak d = true
        · rw [if_pos h2] at hl
          rcases List.mem_cons.mp hl with h | h
          · subst h; exact hacc c (List.mem_reverse.mp hc)
          · exact ih [] _ (by simp) l h c hc
        · rw [if_neg h2] at hl
          refine ih (d :: acc) false ?_ l hl c hc
          intro e he
          rcases List.mem_cons.mp he with h | h
          · subst h; exact Bool.not_eq_true _ ▸ (by simpa using h2)
          · exact hacc e h

/-- Every line produced by `pySplitlines` is free of line-boundary characters. -/
theorem pySplitlines_noBrk (s : List Char) : ∀ l ∈ pySplitlines s, noBrk l = true := by
  intro l hl
  simp only [noBrk, List.all_eq_true]
  intro c hc
  simpa using splitAux_mem_noBrk s [] false (by simp) l hl c hc

/-! ### Joining lines with `"\n"` and splitting back -/

theorem intercalate_two (sep a b : List Char) (t : List (List Char)) :
    List.intercalate sep (a :: b :: t) = a ++ sep ++ List.intercalate sep (b :: t) := by
  simp [List.intercalate, List.intersperse_cons_cons, List.append_assoc]

theorem intercalate_one (sep a : List Char) : List.intercalate sep [a] = a := by
  simp [List.intercalate, List.intersperse]

/-- Splitting `"\n".join(out_lines) + "\n"` recovers `out_lines`. -/
theorem pySplitlines_intercalate_nl (ls : List (List Char)) (h : ls ≠ [])
    (hm : ∀ l ∈ ls, noBrk l = true) :
    pySplitlines (List.intercalate ['\n'] ls ++ ['\n']) = ls := by
  induction ls with
  | nil => exact absurd rfl h
  | cons a t ih =>
      cases t with
      | nil =>
          rw [intercalate_one]
          unfold pySplitlines
          rw [splitAux_append_nl a (hm a (by simp)) [] []]
          simp [splitAux]
      | cons b t2 =>
          rw [intercalate_two, List.append_assoc, List.append_assoc]
          unfold pySplitlines
          rw [List.singleton_append,
            splitAux_append_nl a (hm a (by simp)) [] _]
          have := ih (by simp) (fun l hl => hm l (List.mem_cons_of_mem a hl))
          unfold pySplitlines at this
          simp only [List.reverse_nil, List.nil_append]
          rw [this]

/-- Splitting `"\n".join(out_lines)` recovers `out_lines`, except that a
trailing empty line is absorbed. -/
theorem pySplitlines_intercalate (ls : List (List Char)) (h : ls ≠ [])
    (hm : ∀ l ∈ ls, noBrk l = true) :
    pySplitlines (List.intercalate ['\n'] ls) =
      if ls.getLast? = some [] then ls.dropLast else ls := by
  induction ls with
  | nil => exact absurd rfl h
  | cons a t ih =>
      cases t with
      | nil =>
          rw [intercalate_one]
          unfold pySplitlines
          rw [splitAux_noBrk a (hm a (by simp)) []]
          by_cases ha : a = []
          · subst ha; simp
          · rw [if_neg (by simpa using ha)]
            simp [List.getLast?_singleton, ha]
      | cons b t2 =>
          rw [intercalate_two, List.append_assoc]
          unfold pySplitlines
          rw [List.singleton_append,
            splitAux_append_nl a (hm a (by simp)) [] _]
          have := ih (by simp) (fun l hl => hm l (List.mem_cons_of_mem a hl))
          unfold pySplitlines at this
          simp only [List.reverse_nil, List.nil_append]
          rw [this]
          rw [List.getLast?_cons_cons]
          by_cases hlast : (b :: t2).getLast? = some ([] : List Char)
          · rw [if_pos hlast, if_pos hlast, List.dropLast_cons₂]
          · rw [if_neg hlast, if_neg hlast]

/-- Index lookup in the split of a joined line list: positions holding a
nonempty line survive the possible absorption of a trailing empty line. -/
theorem getElem?_pySplitlines_join (ls : List (List Char)) (h : ls ≠ [])
    (hm : ∀ l ∈ ls, noBrk l = true) (opt : List Char)
    (hopt : opt = [] ∨ opt = ['\n']) (i : Nat) (a : List Char)
    (ha : ls[i]? = some a) (hne : a ≠ []) :
    (pySplitlines (List.intercalate ['\n'] ls ++ opt))[i]? = some a := by
  rcases hopt with rfl | rfl
  · rw [List.append_nil, pySplitlines_intercalate ls h hm]
    by_cases hlast : ls.getLast? = some ([] : List Char)
    · rw [if_pos hlast, List.getElem?_dropLast]
      have hi : i < ls.length := by
        by_contra hge
        rw [List.getElem?_eq_none (Nat.le_of_not_lt hge)] at ha
        exact Option.noConfusion ha
      have hne2 : i ≠ ls.length - 1 := by
        intro heq
        rw [List.getLast?_eq_getElem?] at hlast
        rw [heq, hlast] at ha
        exact hne (Option.some.inj ha).symm
      rw [if_pos (by omega), ha]
    · rw [if_neg hlast, ha]
  · rw [pySplitlines_intercalate_nl ls h hm, ha]

/-! ### Lemmas about `buildOut` -/

theorem buildOut_lt (line : List Char) (ab : Bool) :
    ∀ (ls : List (List Char)) (idx ia : Nat), ia < idx →
      buildOut line ab ls idx ia = ls := by
  intro ls
  induction ls with
  | nil => intro idx ia _; rfl
  | cons l rest ih =>
      intro idx ia hlt
      simp only [buildOut]
      rw [if_neg (by omega), ih (idx + 1) ia (by omega)]

theorem buildOut_shape (line : List Char) (ab : Bool) :
    ∀ (ls : List (List Char)) (k idx : Nat), k < ls.length →
      buildOut line ab ls idx (idx + k) =
        ls.take (k + 1) ++ line :: (if ab then [[]] else []) ++ ls.drop (k + 1) := by
  intro ls
  induction ls with
  | nil => intro k idx hk; simp at hk
  | cons l rest ih =>
      intro k idx hk
      cases k with
      | zero =>
          simp only [buildOut, Nat.add_zero, if_pos rfl]
          rw [buildOut_lt line ab rest (idx + 1) idx (by omega)]
          simp
      | succ k2 =>
          simp only [buildOut]
          rw [if_neg (by omega)]
          have : idx + (k2 + 1) = (idx + 1) + k2 := by omega
          rw [this, ih k2 (idx + 1) (by simpa using hk)]
          simp

/-! ### Lemmas about `findPositionsAux` -/

theorem findPositionsAux_bounds :
    ∀ (ls : List (List Char)) (idx li pl : Nat),
      ((findPositionsAux ls idx (li, pl)).1 = li ∨
        (findPositionsAux ls idx (li, pl)).1 < idx + ls.length) ∧
      ((findPositionsAux ls idx (li, pl)).2 = pl ∨
        (findPositionsAux ls idx (li, pl)).2 < idx + ls.length) := by
  intro ls
  induction ls with
  | nil => intro idx li pl; simp [findPositionsAux]
  | cons raw rest ih =>
      intro idx li pl
      simp only [findPositionsAux, List.length_cons]
      constructor
      · rcases (ih (idx + 1) _ _).1 with h | h
        · rw [h]
          by_cases hcond : "import ".data.isPrefixOf (pyLstrip raw)
          · rw [if_pos hcond]; right; omega
          · rw [if_neg hcond]; left; rfl
        · right; omega
      · rcases (ih (idx + 1) _ _).2 with h | h
        · rw [h]
          by_cases hcond : "package ".data.isPrefixOf (pyLstrip raw) ∧ pl = 0
          · rw [if_pos hcond]; right; omega
          · rw [if_neg hcond]; left; rfl
        · right; omega

theorem findPositions_le (c : List Char) :
    (findPositions c).1 ≤ (pySplitlines c).length ∧
    (findPositions c).2 ≤ (pySplitlines c).length := by
  have h := findPositionsAux_bounds (pySplitlines c) 1 0 0
  unfold findPositions
  constructor
  · rcases h.1 with h1 | h1
    · rw [h1]; omega
    · omega
  · rcases h.2 with h1 | h1
    · rw [h1]; omega
    · omega

theorem findPositionsAux_none :
    ∀ (ls : List (List Char)) (idx : Nat) (acc : Nat × Nat),
      (∀ l ∈ ls, "import ".data.isPrefixOf (pyLstrip l) = false ∧
        "package ".data.isPrefixOf (pyLstrip l) = false) →
      findPositionsAux ls idx acc = acc := by
  intro ls
  induction ls with
  | nil => intro idx acc _; rfl
  | cons raw rest ih =>
      intro idx acc hno
      obtain ⟨li, pl⟩ := acc
      have hr := hno raw (by simp)
      simp only [findPositionsAux]
      rw [if_neg (by simp [hr.1]), if_neg (by simp [hr.2])]
      exact ih (idx + 1) (li, pl) (fun l hl => hno l (List.mem_cons_of_mem raw hl))

/-! ### Facts about the canonical import line -/

theorem importLine_cons (b : Bool) (f : List Char) :
    importLine b f = 'i' :: ("mport ".data ++ (if b then "static ".data else []) ++ f ++ [';']) := by
  cases b <;> rfl

theorem importLine_ne_nil (b : Bool) (f : List Char) : importLine b f ≠ [] := by
  rw [importLine_cons]; simp

theorem importLine_concat (b : Bool) (f : List Char) :
    importLine b f = ("import ".data ++ (if b then "static ".data else []) ++ f) ++ [';'] := by
  simp [importLine, List.append_assoc]

theorem pyStrip_importLine (b : Bool) (f : List Char) :
    pyStrip (importLine b f) = importLine b f := by
  unfold pyStrip
  have h1 : (importLine b f).dropWhile pyIsSpace = importLine b f := by
    rw [importLine_cons, List.dropWhile_cons]
    rw [if_neg (by decide)]
  rw [h1]
  have h2 : (importLine b f).reverse.dropWhile pyIsSpace = (importLine b f).reverse := by
    rw [importLine_concat, List.reverse_append]
    simp only [List.reverse_cons, List.reverse_nil, List.nil_append, List.singleton_append,
      List.dropWhile_cons]
    rw [if_neg (by decide)]
  rw [h2, List.reverse_reverse]

theorem pyStrip_nil : pyStrip ([] : List Char) = [] := rfl

theorem noBrk_importLine (b : Bool) (f : List Char) (hf : noBrk f = true) :
    noBrk (importLine b f) = true := by
  simp only [noBrk, importLine, List.all_append, Bool.and_eq_true]
  refine ⟨⟨⟨by decide, ?_⟩, by simpa [noBrk] using hf⟩, by decide⟩
  cases b
  · simp
  · rw [if_pos rfl]; decide

/-! ### `alreadyHasImport` and `countMatching` -/

theorem alreadyHasImport_iff_count (c line : List Char) :
    alreadyHasImport c line = true ↔ 0 < countMatching c line := by
  simp [alreadyHasImport, countMatching, List.any_eq_true, List.countP_pos_iff]

theorem matches_self (line : List Char) :
    (pyStrip line == pyStrip line) = true := by simp

theorem nil_not_matches (b : Bool) (f : List Char) :
    (pyStrip [] == pyStrip (importLine b f)) = false := by
  rw [pyStrip_nil, pyStrip_importLine]
  simp [importLine_ne_nil b f]

/-- `insertAfterPos` is within the line count and positive in the non-top case. -/
theorem insertAfterPos_le (c : List Char) :
    insertAfterPos c ≤ (pySplitlines c).length := by
  have h := findPositions_le c
  unfold insertAfterPos
  by_cases h1 : (findPositions c).1 > 0
  · rw [if_pos h1]; exact h.1
  · rw [if_neg h1]
    by_cases h2 : (findPositions c).2 > 0
    · rw [if_pos h2]; exact h.2
    · rw [if_neg h2]; omega

/-- The `out_lines` list in the non-top case: the input lines with the import
line (and possibly a blank line) spliced in right after line `insertAfterPos`. -/
theorem outLines_shape (c line : List Char) (h : insertAfterPos c ≠ 0) :
    outLines c line =
      (pySplitlines c).take (insertAfterPos c) ++
        line :: (if (findPositions c).1 = 0 ∧ 0 < (findPositions c).2 then [[]] else []) ++
        (pySplitlines c).drop (insertAfterPos c) := by
  have hle : insertAfterPos c ≤ (pySplitlines c).length := insertAfterPos_le c
  obtain ⟨k, hk⟩ : ∃ k, insertAfterPos c = 1 + k := ⟨insertAfterPos c - 1, by omega⟩
  have hklen : k < (pySplitlines c).length := by omega
  unfold outLines
  rw [hk, buildOut_shape line _ (pySplitlines c) k 1 hklen]
  have : k + 1 = 1 + k := by omega
  rw [this]
  simp [decide_eq_true_eq]

/-- Every element of `out_lines` is free of line boundaries, when the import
line is. -/
theorem outLines_noBrk (c line : List Char) (h : insertAfterPos c ≠ 0)
    (hline : noBrk line = true) :
    ∀ l ∈ outLines c line, noBrk l = true := by
  rw [outLines_shape c line h]
  intro l hl
  rcases List.mem_append.mp hl with h1 | h1
  · rcases List.mem_append.mp h1 with h2 | h2
    · exact pySplitlines_noBrk c l (List.take_subset _ _ h2)
    · rcases List.mem_cons.mp h2 with h3 | h3
      · subst h3; exact hline
      · by_cases hab : (findPositions c).1 = 0 ∧ 0 < (findPositions c).2
        · rw [if_pos hab] at h3
          simp only [List.mem_singleton] at h3
          subst h3; rfl
        · rw [if_neg hab] at h3; simp at h3
  · exact pySplitlines_noBrk c l (List.drop_subset _ _ h1)

theorem outLines_ne_nil (c line : List Char) (h : insertAfterPos c ≠ 0) :
    outLines c line ≠ [] := by
  rw [outLines_shape c line h]
  simp

/-- Core counting fact: inserting adds exactly one line matching the
canonical import line. -/
theorem countMatching_insertImport (c : List Char) (b : Bool) (f : List Char)
    (hf : noBrk f = true) :
    countMatching (insertImport c (importLine b f)) (importLine b f) =
      countMatching c (importLine b f) + 1 := by
  have hlineBrk : noBrk (importLine b f) = true := noBrk_importLine b f hf
  unfold insertImport
  by_cases h0 : insertAfterPos c = 0
  · rw [if_pos h0]
    have hsplit : pySplitlines (importLine b f ++ '\n' :: '\n' :: c) =
        importLine b f :: [] :: pySplitlines c := by
      unfold pySplitlines
      rw [splitAux_append_nl (importLine b f) hlineBrk [] ('\n' :: c)]
      have hstep : splitAux ('\n' :: c) [] false = [] :: splitAux c [] false := by
        simp only [splitAux]
        rw [if_neg (by simp), if_pos (by decide), decide_lf_ne_cr]
        simp
      rw [hstep]
      simp
    unfold countMatching
    rw [hsplit, List.countP_cons, List.countP_cons, matches_self (importLine b f),
      nil_not_matches b f]
    simp
  · rw [if_neg h0]
    have hshape := outLines_shape c (importLine b f) h0
    have hmem := outLines_noBrk c (importLine b f) h0 hlineBrk
    have hnn := outLines_ne_nil c (importLine b f) h0
    have hcountPad :
        ((if (findPositions c).1 = 0 ∧ 0 < (findPositions c).2 then
            [([] : List Char)] else []).countP
          fun raw => pyStrip raw == pyStrip (importLine b f)) = 0 := by
      by_cases hab : (findPositions c).1 = 0 ∧ 0 < (findPositions c).2
      · rw [if_pos hab, List.countP_cons, nil_not_matches b f]
        simp
      · rw [if_neg hab]; rfl
    have hTD : ((pySplitlines c).countP
          fun raw => pyStrip raw == pyStrip (importLine b f)) =
        (((pySplitlines c).take (insertAfterPos c)).countP
          fun raw => pyStrip raw == pyStrip (importLine b f)) +
        (((pySplitlines c).drop (insertAfterPos c)).countP
          fun raw => pyStrip raw == pyStrip (importLine b f)) := by
      rw [← List.countP_append, List.take_append_drop]
    have hcountOut : ((outLines c (importLine b f)).countP
        fun raw => pyStrip raw == pyStrip (importLine b f)) =
        ((pySplitlines c).countP fun raw => pyStrip raw == pyStrip (importLine b f)) + 1 := by
      rw [hshape, List.countP_append, List.countP_append, List.countP_cons,
        matches_self (importLine b f), hcountPad, hTD]
      simp
      omega
    by_cases hend : c.getLast? = some '\n'
    · rw [if_pos hend]
      unfold countMatching
      rw [pySplitlines_intercalate_nl (outLines c (importLine b f)) hnn hmem]
      exact hcountOut
    · rw [if_neg hend]
      simp only [List.append_nil]
      unfold countMatching
      rw [pySplitlines_intercalate (outLines c (importLine b f)) hnn hmem]
      by_cases hlast : (outLines c (importLine b f)).getLast? = some ([] : List Char)
      · rw [if_pos hlast]
        have hdl : (outLines c (importLine b f)).dropLast ++ [[]] =
            outLines c (importLine b f) :=
          List.dropLast_append_getLast? _ hlast
        have heq : ((outLines c (importLine b f)).countP
            fun raw => pyStrip raw == pyStrip (importLine b f)) =
            (((outLines c (importLine b f)).dropLast.countP
              fun raw => pyStrip raw == pyStrip (importLine b f)) +
              (([([] : List Char)]).countP
                fun raw => pyStrip raw == pyStrip (importLine b f))) := by
          rw [← List.countP_append, hdl]
        rw [List.countP_cons, nil_not_matches b f] at heq
        simp at heq
        omega
      · rw [if_neg hlast]
        exact hcountOut

/-- The top-of-file insertion writes the import line and a blank line before
the original content. -/
theorem pySplitlines_top (c line : List Char) (hl : noBrk line = true) :
    pySplitlines (line ++ '\n' :: '\n' :: c) = line :: [] :: pySplitlines c := by
  unfold pySplitlines
  rw [splitAux_append_nl line hl [] ('\n' :: c)]
  have hstep : splitAux ('\n' :: c) [] false = [] :: splitAux c [] false := by
    simp only [splitAux]
    rw [if_neg (by simp), if_pos (by decide), decide_lf_ne_cr]
    simp
  rw [hstep]
  simp

theorem mem_intersperse_cases (sep : List Char) :
    ∀ (ls : List (List Char)), ∀ l ∈ List.intersperse sep ls, l = sep ∨ l ∈ ls := by
  intro ls
  induction ls with
  | nil => intro l hl; simp [List.intersperse] at hl
  | cons a t ih =>
      cases t with
      | nil =>
          intro l hl
          simp only [List.intersperse, List.mem_singleton] at hl
          right; simp [hl]
      | cons b t2 =>
          intro l hl
          rw [List.intersperse_cons_cons] at hl
          rcases List.mem_cons.mp hl with h | h
          · right; simp [h]
          · rcases List.mem_cons.mp h with h2 | h2
            · left; exact h2
            · rcases ih l h2 with h3 | h3
              · left; exact h3
              · right; exact List.mem_cons_of_mem a h3

/-- Membership in a `"\n"`-joined list comes from a member line or is the
newline itself. -/
theorem mem_intercalate_nl (ls : List (List Char)) (ch : Char)
    (h : ch ∈ List.intercalate ['\n'] ls) : ch = '\n' ∨ ∃ l ∈ ls, ch ∈ l := by
  unfold List.intercalate at h
  rcases List.mem_flatten.mp h with ⟨l, hl, hch⟩
  rcases mem_intersperse_cases ['\n'] ls l hl with h2 | h2
  · subst h2
    left
    simpa using hch
  · right; exact ⟨l, h2, hch⟩

/-! ### Index arithmetic for the spliced line list -/

theorem splice_get_left (ls : List (List Char)) (A : Nat) (hA : A ≤ ls.length)
    (line : List Char) (pad : List (List Char)) (i : Nat) (hi : i < A) :
    ((ls.take A ++ line :: pad) ++ ls.drop A)[i]? = ls[i]? := by
  have hlen : (ls.take A ++ line :: pad).length = A + 1 + pad.length := by
    simp [List.length_take, Nat.min_eq_left hA]
    omega
  rw [List.getElem?_append_left (by omega),
    List.getElem?_append_left (by simp [List.length_take]; omega),
    List.getElem?_take_of_lt hi]

theorem splice_get_mid (ls : List (List Char)) (A : Nat) (hA : A ≤ ls.length)
    (line : List Char) (pad : List (List Char)) :
    ((ls.take A ++ line :: pad) ++ ls.drop A)[A]? = some line := by
  have htk : (ls.take A).length = A := by simp [List.length_take, Nat.min_eq_left hA]
  rw [List.getElem?_append_left
      (by simp only [List.length_append, List.length_cons, htk]; omega),
    List.getElem?_append_right (by omega)]
  simp [htk]

theorem splice_get_right (ls : List (List Char)) (A : Nat) (hA : A ≤ ls.length)
    (line : List Char) (pad : List (List Char)) (j : Nat) (hj : A ≤ j) :
    ((ls.take A ++ line :: pad) ++ ls.drop A)[j + pad.length + 1]? = ls[j]? := by
  have hlen : (ls.take A ++ line :: pad).length = A + 1 + pad.length := by
    simp [List.length_take, Nat.min_eq_left hA]
    omega
  rw [List.getElem?_append_right (by omega)]
  rw [hlen, List.getElem?_drop]
  congr 1
  omega

/-! ### Claim C1 -/

/-- C1 counterexample: on the file `package com.example;\n\npublic class Foo {}\n`
with specification {Class, "java.util.List"}, the insertion does NOT produce
the output claimed by the specification (one blank line between the import
and the class): the code keeps the original blank line and adds another one. -/
theorem c1_claimed_output_wrong :
    addImport "package com.example;\n\npublic class Foo {}\n".data
        (importLine false "java.util.List".data) ≠
      "package com.example;\nimport java.util.List;\n\npublic class Foo {}\n".data := by
  decide

/-- C1 (amended): on that input the insertion produces
`package com.example;\nimport java.util.List;\n\n\npublic class Foo {}\n` —
the import right after the package line, followed by the readability blank
line plus the original blank line (two consecutive blank lines), then the
class, with the trailing newline kept. -/
theorem c1_actual_output :
    addImport "package com.example;\n\npublic class Foo {}\n".data
        (importLine false "java.util.List".data) =
      "package com.example;\nimport java.util.List;\n\n\npublic class Foo {}\n".data := by
  decide

/-! ### Claim C2 -/

/-- C2 counterexample: for the import specification {Class, "a\nb"} (an FQN
containing a line terminator) and empty file content, applying the insertion
operation twice does not equal applying it once: the inserted text is split
over two lines, so the second run does not detect it and inserts again. -/
theorem c2_not_idempotent_with_break :
    addImport (addImport [] (importLine false "a\nb".data)) (importLine false "a\nb".data) ≠
      addImport [] (importLine false "a\nb".data) := by
  decide

/-- C2 (amended): for every file content and every import specification whose
FQN contains no line-terminator character, the second application reports
"already present" and performs no mutation, so applying the operation twice
yields content identical to applying it once. -/
theorem c2_idempotent (c : List Char) (isStatic : Bool) (fqn : List Char)
    (hf : noBrk fqn = true) :
    alreadyHasImport (addImport c (importLine isStatic fqn)) (importLine isStatic fqn) = true ∧
    addImport (addImport c (importLine isStatic fqn)) (importLine isStatic fqn) =
      addImport c (importLine isStatic fqn) := by
  have h1 : alreadyHasImport (addImport c (importLine isStatic fqn))
      (importLine isStatic fqn) = true := by
    unfold addImport
    by_cases h : alreadyHasImport c (importLine isStatic fqn) = true
    · rw [if_pos h]; exact h
    · rw [if_neg h]
      rw [alreadyHasImport_iff_count, countMatching_insertImport c isStatic fqn hf]
      omega
  refine ⟨h1, ?_⟩
  conv_lhs => rw [addImport]
  rw [if_pos h1]

/-- C2 witness. -/
theorem c2_idempotent_witness :
    noBrk "java.util.List".data = true ∧
    (alreadyHasImport
        (addImport "package p;\n".data (importLine false "java.util.List".data))
        (importLine false "java.util.List".data) = true ∧
      addImport (addImport "package p;\n".data (importLine false "java.util.List".data))
          (importLine false "java.util.List".data) =
        addImport "package p;\n".data (importLine false "java.util.List".data)) :=
  ⟨by decide, c2_idempotent "package p;\n".data false "java.util.List".data (by decide)⟩

/-! ### Claim C3 -/

/-- C3 counterexample: a file already containing the canonical line twice is
left untouched ("already present"), so the processed content contains two
matching lines, not exactly one. -/
theorem c3_two_occurrences_stay :
    countMatching
        (addImport "import a.B;\nimport a.B;\n".data (importLine false "a.B".data))
        (importLine false "a.B".data) ≠ 1 := by
  decide

/-- C3 (amended): for every import specification whose FQN contains no
line-terminator character and every file content containing at most one line
that trims to the canonical line, the processed content contains exactly one
such line. -/
theorem c3_exactly_one (c : List Char) (isStatic : Bool) (fqn : List Char)
    (hf : noBrk fqn = true)
    (hle : countMatching c (importLine isStatic fqn) ≤ 1) :
    countMatching (addImport c (importLine isStatic fqn)) (importLine isStatic fqn) = 1 := by
  unfold addImport
  by_cases h : alreadyHasImport c (importLine isStatic fqn) = true
  · rw [if_pos h]
    have := (alreadyHasImport_iff_count c (importLine isStatic fqn)).mp h
    omega
  · rw [if_neg h]
    rw [countMatching_insertImport c isStatic fqn hf]
    have h0 : ¬ 0 < countMatching c (importLine isStatic fqn) := fun hc =>
      h ((alreadyHasImport_iff_count c (importLine isStatic fqn)).mpr hc)
    omega

/-- C3 witness. -/
theorem c3_exactly_one_witness :
    noBrk "a.B".data = true ∧
    countMatching "package p;\n".data (importLine false "a.B".data) ≤ 1 ∧
    countMatching (addImport "package p;\n".data (importLine false "a.B".data))
      (importLine false "a.B".data) = 1 :=
  ⟨by decide, by decide,
    c3_exactly_one "package p;\n".data false "a.B".data (by decide) (by decide)⟩

/-! ### Claim C7 -/

/-- C7 counterexample: the file `package p;` does not end with a newline, but
the insertion output does (the blank line appended after the package, being
the last `out_lines` entry, makes the joined text end with `"\n"`), so the
trailing-newline convention is not preserved in this direction. -/
theorem c7_newline_not_preserved :
    ("package p;".data : List Char).getLast? ≠ some '\n' ∧
    (insertImport "package p;".data (importLine false "a.B".data)).getLast? = some '\n' := by
  decide

/-- C7 (amended): one direction holds — if the input content ends with a
newline, so does the insertion output. -/
theorem c7_keeps_trailing_newline (c line : List Char) (h : c.getLast? = some '\n') :
    (insertImport c line).getLast? = some '\n' := by
  unfold insertImport
  by_cases h0 : insertAfterPos c = 0
  · rw [if_pos h0]
    have hc : c ≠ [] := by
      intro he
      rw [he] at h
      simp at h
    rw [List.getLast?_append_of_ne_nil line (by simp), List.getLast?_cons_cons]
    obtain ⟨d, t, rfl⟩ := List.exists_cons_of_ne_nil hc
    rw [List.getLast?_cons_cons]
    exact h
  · rw [if_neg h0, if_pos h]
    exact List.getLast?_concat _

/-- C7 witness. -/
theorem c7_keeps_trailing_newline_witness :
    ("class X {}\n".data : List Char).getLast? = some '\n' ∧
    (insertImport "class X {}\n".data (importLine false "a.B".data)).getLast? = some '\n' :=
  ⟨by decide,
    c7_keeps_trailing_newline "class X {}\n".data (importLine false "a.B".data) (by decide)⟩

/-! ### Claim C5 -/

/-- C5: when the file has at least one import-prefixed line (the last at
1-based position L) and does not already contain the canonical line, the
insertion splices the canonical line into the line list immediately after
position L with every other line kept, the output is exactly those lines
joined with `"\n"` (plus the preserved trailing newline), and line L+1 of the
output (0-based index L) is the canonical line. -/
theorem c5_insert_after_last_import (c : List Char) (isStatic : Bool) (fqn : List Char)
    (hf : noBrk fqn = true)
    (hnot : alreadyHasImport c (importLine isStatic fqn) = false)
    (hL : 0 < (findPositions c).1) :
    outLines c (importLine isStatic fqn) =
      (pySplitlines c).take ((findPositions c).1) ++
        importLine isStatic fqn :: (pySplitlines c).drop ((findPositions c).1) ∧
    insertImport c (importLine isStatic fqn) =
      List.intercalate ['\n'] (outLines c (importLine isStatic fqn)) ++
        (if c.getLast? = some '\n' then ['\n'] else []) ∧
    (pySplitlines (insertImport c (importLine isStatic fqn)))[(findPositions c).1]? =
      some (importLine isStatic fqn) := by
  have hA : insertAfterPos c = (findPositions c).1 := by
    unfold insertAfterPos
    rw [if_pos hL]
  have h0 : insertAfterPos c ≠ 0 := by omega
  have hab : ¬((findPositions c).1 = 0 ∧ 0 < (findPositions c).2) := by
    intro hcon
    omega
  have hlen : (findPositions c).1 ≤ (pySplitlines c).length := (findPositions_le c).1
  have hshape : outLines c (importLine isStatic fqn) =
      ((pySplitlines c).take ((findPositions c).1) ++ [importLine isStatic fqn]) ++
        (pySplitlines c).drop ((findPositions c).1) := by
    rw [outLines_shape c _ h0, if_neg hab, hA]
  have hshape2 : outLines c (importLine isStatic fqn) =
      (pySplitlines c).take ((findPositions c).1) ++
        importLine isStatic fqn :: (pySplitlines c).drop ((findPositions c).1) := by
    rw [hshape]
    simp
  have hins : insertImport c (importLine isStatic fqn) =
      List.intercalate ['\n'] (outLines c (importLine isStatic fqn)) ++
        (if c.getLast? = some '\n' then ['\n'] else []) := by
    unfold insertImport
    rw [if_neg h0]
  refine ⟨hshape2, hins, ?_⟩
  rw [hins]
  have hmem := outLines_noBrk c _ h0 (noBrk_importLine isStatic fqn hf)
  have hnn := outLines_ne_nil c (importLine isStatic fqn) h0
  have ha : (outLines c (importLine isStatic fqn))[(findPositions c).1]? =
      some (importLine isStatic fqn) := by
    rw [hshape]
    exact splice_get_mid _ _ hlen _ []
  by_cases hend : c.getLast? = some '\n'
  · rw [if_pos hend]
    exact getElem?_pySplitlines_join _ hnn hmem ['\n'] (Or.inr rfl) _ _ ha
      (importLine_ne_nil isStatic fqn)
  · rw [if_neg hend]
    exact getElem?_pySplitlines_join _ hnn hmem [] (Or.inl rfl) _ _ ha
      (importLine_ne_nil isStatic fqn)

/-- C5 witness. -/
theorem c5_insert_after_last_import_witness :
    (pySplitlines (insertImport "import a.A;\npublic class X {}\n".data
        (importLine false "b.B".data)))[(findPositions "import a.A;\npublic class X {}\n".data).1]? =
      some (importLine false "b.B".data) :=
  (c5_insert_after_last_import "import a.A;\npublic class X {}\n".data false "b.B".data
    (by decide) (by decide) (by decide)).2.2

/-! ### Claim C6 -/

/-- C6: for a file with no import-prefixed line and no package-prefixed line,
the output is the canonical line, a blank line, then the original content
unchanged; its line list is the canonical line, an empty line, then the
original lines. -/
theorem c6_top_of_file (c : List Char) (isStatic : Bool) (fqn : List Char)
    (hf : noBrk fqn = true)
    (hno : ∀ l ∈ pySplitlines c,
      "import ".data.isPrefixOf (pyLstrip l) = false ∧
      "package ".data.isPrefixOf (pyLstrip l) = false) :
    insertImport c (importLine isStatic fqn) =
      importLine isStatic fqn ++ '\n' :: '\n' :: c ∧
    pySplitlines (insertImport c (importLine isStatic fqn)) =
      importLine isStatic fqn :: [] :: pySplitlines c := by
  have hfp : findPositions c = (0, 0) := by
    unfold findPositions
    exact findPositionsAux_none (pySplitlines c) 1 (0, 0) hno
  have h0 : insertAfterPos c = 0 := by
    unfold insertAfterPos
    rw [hfp]
    simp
  have h1 : insertImport c (importLine isStatic fqn) =
      importLine isStatic fqn ++ '\n' :: '\n' :: c := by
    unfold insertImport
    rw [if_pos h0]
  exact ⟨h1, by rw [h1, pySplitlines_top c _ (noBrk_importLine isStatic fqn hf)]⟩

/-- C6 witness. -/
theorem c6_top_of_file_witness :
    insertImport "public class Foo {}\n".data
        (importLine true "org.assertj.core.api.Assertions.assertThat".data) =
      importLine true "org.assertj.core.api.Assertions.assertThat".data ++
        '\n' :: '\n' :: "public class Foo {}\n".data ∧
    pySplitlines (insertImport "public class Foo {}\n".data
        (importLine true "org.assertj.core.api.Assertions.assertThat".data)) =
      importLine true "org.assertj.core.api.Assertions.assertThat".data :: [] ::
        pySplitlines "public class Foo {}\n".data :=
  c6_top_of_file "public class Foo {}\n".data true
    "org.assertj.core.api.Assertions.assertThat".data (by decide) (by decide)

/-! ### Claim C10 -/

/-- C10: in the non-top-of-file case every line-boundary character of the
output is a plain `'\n'` (any `"\r\n"` endings of the input are rewritten,
because the content is split into lines and rejoined with `"\n"`). -/
theorem c10_output_lf_only (c : List Char) (isStatic : Bool) (fqn : List Char)
    (hf : noBrk fqn = true) (h0 : insertAfterPos c ≠ 0) :
    ((insertImport c (importLine isStatic fqn)).all
      fun ch => !isPyLineBreak ch || ch == '\n') = true := by
  unfold insertImport
  rw [if_neg h0]
  simp only [List.all_append, Bool.and_eq_true]
  constructor
  · rw [List.all_eq_true]
    intro ch hch
    rcases mem_intercalate_nl (outLines c (importLine isStatic fqn)) ch hch with
      h | ⟨l, hl, hchl⟩
    · subst h
      decide
    · have hn := outLines_noBrk c _ h0 (noBrk_importLine isStatic fqn hf) l hl
      simp only [noBrk, List.all_eq_true] at hn
      have := hn ch hchl
      simp only [Bool.not_eq_true'] at this
      simp [this]
  · by_cases hend : c.getLast? = some '\n'
    · rw [if_pos hend]
      decide
    · rw [if_neg hend]
      decide

/-- C10 witness: a CRLF-terminated file. -/
theorem c10_output_lf_only_witness :
    insertAfterPos "package a;\r\npublic class X {}\r\n".data ≠ 0 ∧
    ((insertImport "package a;\r\npublic class X {}\r\n".data
        (importLine false "b.C".data)).all
      fun ch => !isPyLineBreak ch || ch == '\n') = true :=
  ⟨by decide,
    c10_output_lf_only "package a;\r\npublic class X {}\r\n".data false "b.C".data
      (by decide) (by decide)⟩

/-! ### Claim C4 -/

/-- C4 counterexample: the file `import a.A;\npackage p;\n` has a package
declaration and does not contain `import b.B;`, yet the inserted line (line 2
of the output, right after the last existing import) is NOT at a line number
strictly greater than the package declaration's (line 2 of the input, line 3
of the output). -/
theorem c4_not_after_package :
    0 < (findPositions "import a.A;\npackage p;\n".data).2 ∧
    alreadyHasImport "import a.A;\npackage p;\n".data (importLine false "b.B".data) = false ∧
    (pySplitlines (insertImport "import a.A;\npackage p;\n".data
        (importLine false "b.B".data)))[insertAfterPos "import a.A;\npackage p;\n".data]? =
      some (importLine false "b.B".data) ∧
    ¬ (insertAfterPos "import a.A;\npackage p;\n".data + 1 >
        (findPositions "import a.A;\npackage p;\n".data).2) ∧
    ¬ (insertAfterPos "import a.A;\npackage p;\n".data + 1 >
        (findPositions (insertImport "import a.A;\npackage p;\n".data
          (importLine false "b.B".data))).2) := by
  decide

/-- C4 (amended): for a file whose first package-prefixed line is at 1-based
position P > 0, provided the last import-prefixed line (if any) does not
precede it: the canonical line lands at 0-based position `insertAfterPos c`
(1-based line `insertAfterPos c + 1 > P`), the package line is unchanged at
its position, and every input line from the insertion point on (in
particular any class/type declaration following the imports) sits strictly
after the inserted line in the output line list. -/
theorem c4_ordering (c : List Char) (isStatic : Bool) (fqn : List Char)
    (hf : noBrk fqn = true)
    (hnot : alreadyHasImport c (importLine isStatic fqn) = false)
    (L P : Nat) (hfp : findPositions c = (L, P))
    (hP : 0 < P) (hord : L = 0 ∨ P ≤ L) :
    P < insertAfterPos c + 1 ∧
    (outLines c (importLine isStatic fqn))[insertAfterPos c]? =
      some (importLine isStatic fqn) ∧
    (outLines c (importLine isStatic fqn))[P - 1]? = (pySplitlines c)[P - 1]? ∧
    insertImport c (importLine isStatic fqn) =
      List.intercalate ['\n'] (outLines c (importLine isStatic fqn)) ++
        (if c.getLast? = some '\n' then ['\n'] else []) ∧
    ∀ j, insertAfterPos c ≤ j →
      insertAfterPos c < j + (if L = 0 then 2 else 1) ∧
      (outLines c (importLine isStatic fqn))[j + (if L = 0 then 2 else 1)]? =
        (pySplitlines c)[j]? := by
  have hfle := findPositions_le c
  rw [hfp] at hfle
  by_cases hL0 : L = 0
  · have hA : insertAfterPos c = P := by
      unfold insertAfterPos
      rw [hfp]
      simp [hL0, hP]
    have h0 : insertAfterPos c ≠ 0 := by omega
    have hab : (findPositions c).1 = 0 ∧ 0 < (findPositions c).2 := by
      rw [hfp]
      exact ⟨hL0, hP⟩
    have hPle : P ≤ (pySplitlines c).length := hfle.2
    have hshape : outLines c (importLine isStatic fqn) =
        ((pySplitlines c).take P ++ importLine isStatic fqn :: [[]]) ++
          (pySplitlines c).drop P := by
      rw [outLines_shape c _ h0, if_pos hab, hA]
    refine ⟨by omega, ?_, ?_, ?_, ?_⟩
    · rw [hshape, hA]
      exact splice_get_mid _ _ hPle _ [[]]
    · rw [hshape]
      exact splice_get_left _ _ hPle _ [[]] (P - 1) (by omega)
    · unfold insertImport
      rw [if_neg h0]
    · intro j hj
      rw [hA] at hj
      refine ⟨by rw [if_pos hL0]; omega, ?_⟩
      rw [if_pos hL0, hshape]
      have h := splice_get_right (pySplitlines c) P hPle
        (importLine isStatic fqn) [[]] j hj
      have he : j + ([[] ] : List (List Char)).length + 1 = j + 2 := by
        simp
      rw [he] at h
      exact h
  · have hPL : P ≤ L := by
      rcases hord with h | h
      · exact absurd h hL0
      · exact h
    have hA : insertAfterPos c = L := by
      unfold insertAfterPos
      rw [hfp]
      have : 0 < L := by omega
      simp [this]
    have h0 : insertAfterPos c ≠ 0 := by omega
    have hab : ¬ ((findPositions c).1 = 0 ∧ 0 < (findPositions c).2) := by
      rw [hfp]
      intro hcon
      exact hL0 hcon.1
    have hLle : L ≤ (pySplitlines c).length := hfle.1
    have hshape : outLines c (importLine isStatic fqn) =
        ((pySplitlines c).take L ++ importLine isStatic fqn :: []) ++
          (pySplitlines c).drop L := by
      rw [outLines_shape c _ h0, if_neg hab, hA]
    refine ⟨by omega, ?_, ?_, ?_, ?_⟩
    · rw [hshape, hA]
      exact splice_get_mid _ _ hLle _ []
    · rw [hshape]
      exact splice_get_left _ _ hLle _ [] (P - 1) (by omega)
    · unfold insertImport
      rw [if_neg h0]
    · intro j hj
      rw [hA] at hj
      refine ⟨by rw [if_neg hL0]; omega, ?_⟩
      rw [if_neg hL0, hshape]
      have h := splice_get_right (pySplitlines c) L hLle
        (importLine isStatic fqn) [] j hj
      have he : j + ([] : List (List Char)).length + 1 = j + 1 := by
        simp
      rw [he] at h
      exact h

/-- C4 witness: the spec's example file (package, blank line, class). -/
theorem c4_ordering_witness :
    (outLines "package com.example;\n\npublic class Foo {}\n".data
        (importLine false "java.util.List".data))[insertAfterPos
          "package com.example;\n\npublic class Foo {}\n".data]? =
      some (importLine false "java.util.List".data) ∧
    (outLines "package com.example;\n\npublic class Foo {}\n".data
        (importLine false "java.util.List".data))[2 + 2]? =
      (pySplitlines "package com.example;\n\npublic class Foo {}\n".data)[2]? := by
  have h := c4_ordering "package com.example;\n\npublic class Foo {}\n".data false
    "java.util.List".data (by decide) (by decide) 0 1 (by decide) (by decide)
    (Or.inl rfl)
  refine ⟨h.2.1, ?_⟩
  have h2 := (h.2.2.2.2 2 (by decide)).2
  simpa using h2

/-! ### Claim C8 -/

/-- C8: the run exits 1 with the error message exactly when no file paths are
given; any nonempty file list exits 0; a skipped file yields its warning and
is left untouched; and processing a list continues around any file — the
loop result for `pre ++ f :: post` is the results for `pre`, then `f`'s,
then `post`'s. -/
theorem c8_exit_codes_and_skips (isStatic : Bool) (fqn : List Char) :
    (mainRun isStatic fqn []).exitCode = 1 ∧
    (mainRun isStatic fqn []).events = [Event.errorNoFiles] ∧
    (∀ files : List JavaFile, files ≠ [] → (mainRun isStatic fqn files).exitCode = 0) ∧
    (∀ f : JavaFile, skipped f = true →
      processFile (importLine isStatic fqn) f = (warnEventFor f, f)) ∧
    (∀ (pre post : List JavaFile) (f : JavaFile),
      processList (importLine isStatic fqn) (pre ++ f :: post) =
        processList (importLine isStatic fqn) pre ++
          processFile (importLine isStatic fqn) f ::
            processList (importLine isStatic fqn) post) := by
  refine ⟨rfl, rfl, ?_, ?_, ?_⟩
  · intro files hne
    cases files with
    | nil => exact absurd rfl hne
    | cons f rest => rfl
  · intro f hskip
    unfold skipped at hskip
    unfold processFile warnEventFor
    by_cases hpe : f.pathExists = false
    · rw [if_pos hpe, if_pos (by simp [hpe])]
    · rw [if_neg hpe]
      by_cases hrf : f.isRegularFile = false
      · rw [if_pos hrf, if_pos (by simp [hrf])]
      · rw [if_neg hrf]
        simp only [Bool.not_eq_false] at hpe hrf
        have hsuf : ¬ pyLower f.suffix = ".java".data := by
          rw [hpe, hrf] at hskip
          simpa using hskip
        rw [if_pos hsuf, if_neg (by simp [hpe, hrf])]
  · intro pre post f
    induction pre with
    | nil => rfl
    | cons g rest ih =>
        simp only [List.cons_append, processList, List.append_eq, ← ih]

/-- C8 witness: a run with no files exits 1; a run on a single non-Java file
exits 0, warns, and leaves the file untouched. -/
theorem c8_exit_codes_and_skips_witness :
    (mainRun false "x.Y".data []).exitCode = 1 ∧
    (mainRun false "x.Y".data [⟨true, true, ".txt".data, []⟩]).exitCode = 0 ∧
    skipped ⟨true, true, ".txt".data, []⟩ = true ∧
    processFile (importLine false "x.Y".data) ⟨true, true, ".txt".data, []⟩ =
      (warnEventFor ⟨true, true, ".txt".data, []⟩, ⟨true, true, ".txt".data, []⟩) ∧
    processList (importLine false "x.Y".data)
        ([] ++ (⟨true, true, ".txt".data, []⟩ : JavaFile) :: []) =
      processList (importLine false "x.Y".data) [] ++
        processFile (importLine false "x.Y".data) ⟨true, true, ".txt".data, []⟩ ::
          processList (importLine false "x.Y".data) [] :=
  ⟨(c8_exit_codes_and_skips false "x.Y".data).1,
    (c8_exit_codes_and_skips false "x.Y".data).2.2.1 _ (by simp),
    by decide,
    (c8_exit_codes_and_skips false "x.Y".data).2.2.2.1 _ (by decide),
    (c8_exit_codes_and_skips false "x.Y".data).2.2.2.2 [] [] _⟩

/-! ### Claim C9 -/

/-- C9: the extension check is case-insensitive — an existing regular file
whose suffix lowercases to ".java" is processed (already-present info or
insertion), never skipped with a warning. -/
theorem c9_suffix_case_insensitive (line : List Char) (f : JavaFile)
    (h1 : f.pathExists = true) (h2 : f.isRegularFile = true)
    (h3 : pyLower f.suffix = ".java".data) :
    processFile line f =
      (if alreadyHasImport f.content line then Event.infoAlreadyPresent
        else Event.okAdded,
       if alreadyHasImport f.content line then f
        else { f with content := insertImport f.content line }) := by
  unfold processFile
  rw [if_neg (by simp [h1]), if_neg (by simp [h2]), if_neg (by simp [h3])]
  by_cases h : alreadyHasImport f.content line = true
  · rw [if_pos h, if_pos h, if_pos h]
  · rw [if_neg h, if_neg h, if_neg h]

/-- C9 witness: `Foo.JAVA` (uppercase extension) is processed, not skipped. -/
theorem c9_suffix_case_insensitive_witness :
    pyLower ".JAVA".data = ".java".data ∧
    (processFile (importLine false "a.B".data)
      ⟨true, true, ".JAVA".data, "package p;\n".data⟩).1 = Event.okAdded := by
  refine ⟨by decide, ?_⟩
  rw [c9_suffix_case_insensitive (importLine false "a.B".data)
    ⟨true, true, ".JAVA".data, "package p;\n".data⟩ rfl rfl (by decide)]
  decide
